import Mathlib

/-!
Shallow embedding of `src/CountMinSketch.py` (vinayduggi/countminsketch).

Modelling conventions:
* An element is represented by its Python `hash` value, an integer; the code
  only ever consumes `abs(hash(x))`, modelled by `Int.natAbs`.
* The counter table `table_counts` is a numpy array of dtype `int32`; cell
  arithmetic therefore wraps into `[-2^31, 2^31)`, modelled by `wrap32`.
  (The model assumes increments fit in a machine `int64`, as numpy requires.)
* The two random parameters `(a, b)` drawn per row by `random_param_generator`
  are injected as an explicit argument `hash_params : ℕ → ℕ × ℕ` instead of
  being read from the global random source.
* Python keyword arguments `epsilon, delta, k, n` of `__init__` are `Option`s;
  the raised `Exception` for insufficient parameters and numpy's rejection of
  negative table dimensions become the constructors of `InitError`.
  The float arithmetic `ceil(e/epsilon)` and `ceil(log(1/delta))` is idealised
  over the reals (the Python `ZeroDivisionError` at `epsilon = 0` or
  `delta = 0` is outside the model; all theorems below stay away from 0).
-/

namespace CMS

/-- Big prime used when creating the hash functions (module constant). -/
def BIG_PRIME : ℕ := 10089886811898868001

/-- Value of `sys.maxsize` on a 64-bit CPython, the initial accumulator of
`estimate_element_count`. -/
def maxsize : ℤ := 2 ^ 63 - 1

/-- Wrapping of an integer into a signed 32-bit counter, the behaviour of the
numpy `int32` cells of `table_counts` under addition. -/
def wrap32 (v : ℤ) : ℤ := (v + 2 ^ 31) % 2 ^ 32 - 2 ^ 31

/-- State of a `CountMinSketch` object after a successful `__init__`:
`k` buckets per row, `n` rows, the `(a, b)` pair of each row's hash function,
the `n × k` counter table (as a total function; only indices `i < n`,
`c < k` correspond to numpy cells), and the `total` field. -/
structure CountMinSketch where
  k : ℕ
  n : ℕ
  hash_params : ℕ → ℕ × ℕ
  table_counts : ℕ → ℕ → ℤ
  total : ℤ

/-- Row hash function built by `__hash_data`: `(a * x + b) % BIG_PRIME % k`. -/
def hashFun (p : ℕ × ℕ) (k : ℕ) (x : ℕ) : ℕ :=
  (p.1 * x + p.2) % BIG_PRIME % k

/-- Column selected for element `x` in row `i`: the row's hash function
applied to `abs(hash(x))`. -/
def col_of (s : CountMinSketch) (i : ℕ) (x : ℤ) : ℕ :=
  hashFun (s.hash_params i) s.k x.natAbs

/-- Write a single cell of the counter table. -/
def writeCell (t : ℕ → ℕ → ℤ) (i c : ℕ) (v : ℤ) : ℕ → ℕ → ℤ :=
  fun i' c' => if i' = i ∧ c' = c then v else t i' c'

/-- Table produced by the loop of `update_element`: for each row `i` in
order, recompute the column for `x` and add `increment_val` to that cell
(with `int32` wrapping). -/
def updatedTable (s : CountMinSketch) (x : ℤ) (increment_val : ℤ) : ℕ → ℕ → ℤ :=
  (List.range s.n).foldl
    (fun t i => writeCell t i (col_of s i x)
      (wrap32 (t i (col_of s i x) + increment_val)))
    s.table_counts

/-- Body of `update_element`: run the row loop on the counter table.
The `total` field is not touched, exactly as in the source. -/
def update_element (s : CountMinSketch) (x : ℤ) (increment_val : ℤ) : CountMinSketch :=
  { s with table_counts := updatedTable s x increment_val }

/-- Body of `estimate_element_count`: `minVal` starts at `sys.maxsize` and the
loop takes `min(table_counts[i, col], minVal)` row by row; the function
returns the pair `(col, minVal)` where `col` is the column of the last row
(`none` models the name `col` being unbound when `n = 0`). -/
def estimate_element_count (s : CountMinSketch) (x : ℤ) : Option ℕ × ℤ :=
  (List.range s.n).foldl
    (fun acc i => (some (col_of s i x), min (s.table_counts i (col_of s i x)) acc.2))
    (none, maxsize)

/-- Replay a list of `update_element` calls (element, increment) in order. -/
def run_updates (s : CountMinSketch) (l : List (ℤ × ℤ)) : CountMinSketch :=
  l.foldl (fun t p => update_element t p.1 p.2) s

/-- True count of element `x` in a replayed sequence: the sum of the
increments applied to `x`. -/
def true_count (x : ℤ) (l : List (ℤ × ℤ)) : ℤ :=
  (l.map fun p => if p.1 = x then p.2 else 0).sum

/-- Sum of all increments of a replayed sequence. -/
def sum_incs (l : List (ℤ × ℤ)) : ℤ :=
  (l.map Prod.snd).sum

/-- Construction failures of `__init__`: the explicit `raise Exception` when
neither parameter pair is fully supplied (the spec's `ConfigurationError`),
and numpy's rejection of a negative table dimension in `np.zeros((n, k))`. -/
inductive InitError where
  | configuration : InitError
  | negativeDimension : InitError
deriving DecidableEq

/-- Width derived from an accuracy target: `int(ceil(e / epsilon))`. -/
noncomputable def kOf (epsilon : ℝ) : ℤ := ⌈Real.exp 1 / epsilon⌉

/-- Depth derived from a certainty target: `int(ceil(log(1 / delta)))`. -/
noncomputable def nOf (delta : ℝ) : ℤ := ⌈Real.log (1 / delta)⌉

/-- Shared tail of `__init__` once the dimensions `kv, nv` are fixed:
allocate the zeroed `n × k` table (numpy refuses negative dimensions) and
record the injected hash parameters; `total` starts at `0`. -/
def mkSketch (kv nv : ℤ) (ps : ℕ → ℕ × ℕ) : Except InitError CountMinSketch :=
  if kv < 0 ∨ nv < 0 then .error .negativeDimension
  else .ok { k := kv.toNat, n := nv.toNat, hash_params := ps,
             table_counts := fun _ _ => 0, total := 0 }

/-- Body of `__init__`: if `delta` and `epsilon` are both supplied the
dimensions are derived from them; otherwise, if `k` and `n` are both supplied
they are used directly; otherwise the constructor raises. -/
noncomputable def init (ps : ℕ → ℕ × ℕ) (epsilon delta : Option ℝ)
    (kArg nArg : Option ℤ) : Except InitError CountMinSketch :=
  match delta, epsilon with
  | some d, some eps => mkSketch (kOf eps) (nOf d) ps
  | _, _ =>
    match kArg, nArg with
    | some kv, some nv => mkSketch kv nv ps
    | _, _ => .error .configuration

/-- The sketch produced by a successful direct `(k, n)` construction. -/
def freshSketch (k n : ℕ) (ps : ℕ → ℕ × ℕ) : CountMinSketch :=
  { k := k, n := n, hash_params := ps, table_counts := fun _ _ => 0, total := 0 }

/-- Boolean success test on a construction result. -/
def initOk (r : Except InitError CountMinSketch) : Bool :=
  match r with
  | .ok _ => true
  | .error _ => false

/-- Well-formed table: every cell holds a value representable in the numpy
`int32` cells of `table_counts`. -/
def WF (s : CountMinSketch) : Prop :=
  ∀ i c, -(2 ^ 31) ≤ s.table_counts i c ∧ s.table_counts i c < 2 ^ 31

/-- Fixed hash parameters used by the concrete witnesses below: every row
hashes with `a = 1`, `b = 0`. -/
def ps0 : ℕ → ℕ × ℕ := fun _ => (1, 0)

/-- Counter read by row `i` when querying element `x`. -/
def rowVal (s : CountMinSketch) (x : ℤ) (i : ℕ) : ℤ :=
  s.table_counts i (col_of s i x)

/-- Total increment received by cell `(i, c)` over a replayed sequence,
ignoring `int32` wrapping. -/
def added_at (s : CountMinSketch) (i c : ℕ) (l : List (ℤ × ℤ)) : ℤ :=
  (l.map fun p => if col_of s i p.1 = c then p.2 else 0).sum

theorem update_element_k (s : CountMinSketch) (x v : ℤ) :
    (update_element s x v).k = s.k := rfl

theorem update_element_n (s : CountMinSketch) (x v : ℤ) :
    (update_element s x v).n = s.n := rfl

theorem update_element_params (s : CountMinSketch) (x v : ℤ) :
    (update_element s x v).hash_params = s.hash_params := rfl

theorem col_of_update (s : CountMinSketch) (x v : ℤ) (i : ℕ) (y : ℤ) :
    col_of (update_element s x v) i y = col_of s i y := rfl

theorem run_updates_nil (s : CountMinSketch) : run_updates s [] = s := rfl

theorem run_updates_cons (s : CountMinSketch) (p : ℤ × ℤ) (l : List (ℤ × ℤ)) :
    run_updates s (p :: l) = run_updates (update_element s p.1 p.2) l := rfl

theorem run_updates_n (l : List (ℤ × ℤ)) : ∀ s : CountMinSketch,
    (run_updates s l).n = s.n := by
  induction l with
  | nil => intro s; rfl
  | cons p tl ih => intro s; rw [run_updates_cons]; exact ih _

theorem wrap32_eq_self (v : ℤ) (h0 : -(2 ^ 31) ≤ v) (h1 : v < 2 ^ 31) :
    wrap32 v = v := by
  unfold wrap32; omega

theorem wrap32_mem_range (v : ℤ) :
    -(2 ^ 31) ≤ wrap32 v ∧ wrap32 v < 2 ^ 31 := by
  unfold wrap32; omega

theorem foldl_writeCell_eq (f : ℕ → ℕ) (v : ℤ) :
    ∀ (rows : List ℕ) (t : ℕ → ℕ → ℤ), rows.Nodup → ∀ i c,
      (rows.foldl (fun t' r => writeCell t' r (f r) (wrap32 (t' r (f r) + v))) t) i c
        = if i ∈ rows ∧ c = f i then wrap32 (t i c + v) else t i c := by
  intro rows
  induction rows with
  | nil => intro t _ i c; simp
  | cons r rest ih =>
    intro t hnd i c
    have hnd' := List.nodup_cons.mp hnd
    rw [List.foldl_cons, ih _ hnd'.2 i c]
    by_cases hmem : i ∈ rest ∧ c = f i
    · have hir : i ≠ r := fun h => hnd'.1 (h ▸ hmem.1)
      have hw : writeCell t r (f r) (wrap32 (t r (f r) + v)) i c = t i c := by
        simp [writeCell, hir]
      rw [if_pos hmem, hw, if_pos ⟨List.mem_cons_of_mem r hmem.1, hmem.2⟩]
    · rw [if_neg hmem]
      by_cases hrc : i = r ∧ c = f r
      · obtain ⟨hi, hc⟩ := hrc
        subst hi
        have hw : writeCell t i (f i) (wrap32 (t i (f i) + v)) i c = wrap32 (t i c + v) := by
          simp [writeCell, hc]
        rw [hw, if_pos ⟨List.mem_cons_self i rest, hc⟩]
      · have hw : writeCell t r (f r) (wrap32 (t r (f r) + v)) i c = t i c := by
        -- i hits neither the already-written rows nor row r
          simp only [writeCell, ite_eq_right_iff]
          intro h
          exact absurd ⟨h.1, h.1 ▸ h.2⟩ hrc
        rw [hw, if_neg]
        rintro ⟨hmem', hc⟩
        rcases List.mem_cons.mp hmem' with h | h
        · exact hrc ⟨h, h ▸ hc⟩
        · exact hmem ⟨h, hc⟩

theorem updatedTable_eq (s : CountMinSketch) (x v : ℤ) (i c : ℕ) :
    updatedTable s x v i c
      = if i < s.n ∧ c = col_of s i x then wrap32 (s.table_counts i c + v)
        else s.table_counts i c := by
  have h := foldl_writeCell_eq (fun r => col_of s r x) v (List.range s.n)
    s.table_counts (List.nodup_range s.n) i c
  simpa [updatedTable, List.mem_range] using h

theorem update_table_eq (s : CountMinSketch) (x v : ℤ) (i c : ℕ) :
    (update_element s x v).table_counts i c
      = if i < s.n ∧ c = col_of s i x then wrap32 (s.table_counts i c + v)
        else s.table_counts i c :=
  updatedTable_eq s x v i c

theorem foldl_pair_snd (g : ℕ → Option ℕ) (f : ℕ → ℤ) :
    ∀ (l : List ℕ) (p : Option ℕ × ℤ),
      (l.foldl (fun acc i => (g i, min (f i) acc.2)) p).2
        = l.foldl (fun m i => min (f i) m) p.2 := by
  intro l
  induction l with
  | nil => intro p; rfl
  | cons a tl ih => intro p; rw [List.foldl_cons, List.foldl_cons, ih]

theorem estimate_snd (s : CountMinSketch) (x : ℤ) :
    (estimate_element_count s x).2
      = (List.range s.n).foldl (fun m i => min (rowVal s x i) m) maxsize := by
  exact foldl_pair_snd (fun i => some (col_of s i x)) (rowVal s x) (List.range s.n)
    (none, maxsize)

theorem foldl_min_le_init (f : ℕ → ℤ) :
    ∀ (l : List ℕ) (A : ℤ), l.foldl (fun m i => min (f i) m) A ≤ A := by
  intro l
  induction l with
  | nil => intro A; exact le_refl A
  | cons a tl ih =>
    intro A
    rw [List.foldl_cons]
    exact le_trans (ih (min (f a) A)) (min_le_right _ _)

theorem foldl_min_le_of_mem (f : ℕ → ℤ) :
    ∀ (l : List ℕ) (A : ℤ) (i : ℕ), i ∈ l →
      l.foldl (fun m i => min (f i) m) A ≤ f i := by
  intro l
  induction l with
  | nil => intro A i h; exact absurd h (List.not_mem_nil i)
  | cons a tl ih =>
    intro A i h
    rw [List.foldl_cons]
    rcases List.mem_cons.mp h with h | h
    · subst h
      exact le_trans (foldl_min_le_init f tl _) (min_le_left _ _)
    · exact ih _ i h

theorem foldl_min_eq_init_or_mem (f : ℕ → ℤ) :
    ∀ (l : List ℕ) (A : ℤ),
      l.foldl (fun m i => min (f i) m) A = A
        ∨ ∃ i ∈ l, l.foldl (fun m i => min (f i) m) A = f i := by
  intro l
  induction l with
  | nil => intro A; exact Or.inl rfl
  | cons a tl ih =>
    intro A
    rw [List.foldl_cons]
    rcases ih (min (f a) A) with h | ⟨i, hi, h⟩
    · rcases min_choice (f a) A with hm | hm
      · exact Or.inr ⟨a, List.mem_cons_self a tl, h.trans hm⟩
      · exact Or.inl (h.trans hm)
    · exact Or.inr ⟨i, List.mem_cons_of_mem a hi, h⟩

theorem le_foldl_min (f : ℕ → ℤ) :
    ∀ (l : List ℕ) (A B : ℤ), B ≤ A → (∀ i ∈ l, B ≤ f i) →
      B ≤ l.foldl (fun m i => min (f i) m) A := by
  intro l
  induction l with
  | nil => intro A B hA _; exact hA
  | cons a tl ih =>
    intro A B hA h
    rw [List.foldl_cons]
    exact ih _ _ (le_min (h a (List.mem_cons_self a tl)) hA)
      (fun i hi => h i (List.mem_cons_of_mem a hi))

theorem foldl_min_mono (f g : ℕ → ℤ) :
    ∀ (l : List ℕ) (A B : ℤ), A ≤ B → (∀ i ∈ l, f i ≤ g i) →
      l.foldl (fun m i => min (f i) m) A ≤ l.foldl (fun m i => min (g i) m) B := by
  intro l
  induction l with
  | nil => intro A B hAB _; exact hAB
  | cons a tl ih =>
    intro A B hAB h
    rw [List.foldl_cons, List.foldl_cons]
    exact ih _ _ (min_le_min (h a (List.mem_cons_self a tl)) hAB)
      (fun i hi => h i (List.mem_cons_of_mem a hi))

theorem WF_fresh (k n : ℕ) (ps : ℕ → ℕ × ℕ) : WF (freshSketch k n ps) := by
  intro i c
  constructor <;> norm_num [freshSketch]

theorem WF_update (s : CountMinSketch) (x v : ℤ) (h : WF s) :
    WF (update_element s x v) := by
  intro i c
  rw [update_table_eq]
  by_cases hc : i < s.n ∧ c = col_of s i x
  · rw [if_pos hc]; exact wrap32_mem_range _
  · rw [if_neg hc]; exact h i c

/-- Claim C1: for every successfully constructed sketch (well-formed `int32`
table, at least one row) and every element `x`, the estimate component
returned by `estimate_element_count x` equals the minimum, over the `n` rows
`i`, of the counter `table_counts[i, h_i(|hash(x)|)]` — the same column
derivation used by `update_element`. -/
theorem estimate_is_min_over_rows (s : CountMinSketch) (x : ℤ)
    (hn : 1 ≤ s.n) (hwf : WF s) :
    (estimate_element_count s x).2
      = Finset.inf' (Finset.range s.n) (Finset.nonempty_range_iff.mpr (by omega))
          (rowVal s x) := by
  rw [estimate_snd]
  have hlb : ∀ i ∈ List.range s.n,
      (List.range s.n).foldl (fun m i => min (rowVal s x i) m) maxsize ≤ rowVal s x i :=
    fun i hi => foldl_min_le_of_mem (rowVal s x) (List.range s.n) maxsize i hi
  have hmem : ∃ i ∈ List.range s.n,
      (List.range s.n).foldl (fun m i => min (rowVal s x i) m) maxsize = rowVal s x i := by
    rcases foldl_min_eq_init_or_mem (rowVal s x) (List.range s.n) maxsize with h | h
    · exfalso
      have h0 : (0 : ℕ) ∈ List.range s.n := List.mem_range.mpr (by omega)
      have hle := hlb 0 h0
      have hsmall := (hwf 0 (col_of s 0 x)).2
      rw [h] at hle
      unfold maxsize at hle
      have : rowVal s x 0 < 2 ^ 31 := hsmall
      omega
    · exact h
  obtain ⟨i0, hi0, hfold⟩ := hmem
  apply le_antisymm
  · apply Finset.le_inf'
    intro i hi
    exact hlb i (List.mem_range.mpr (Finset.mem_range.mp hi))
  · rw [hfold]
    exact Finset.inf'_le (rowVal s x) (Finset.mem_range.mpr (List.mem_range.mp hi0))

/-- Witness for C1: on a fresh 2-row sketch the estimate of element `3`
equals the minimum of the two counters it hashes to. -/
theorem estimate_is_min_over_rows_w :
    (estimate_element_count (freshSketch 2 2 ps0) 3).2
      = Finset.inf' (Finset.range (freshSketch 2 2 ps0).n) ⟨0, by decide⟩
          (rowVal (freshSketch 2 2 ps0) 3) :=
  estimate_is_min_over_rows (freshSketch 2 2 ps0) 3 (by decide) (WF_fresh 2 2 ps0)

/-- Claim C8: `update_element x v` touches exactly the `n` cells
`(i, h_i(|hash(x)|))`, one per row, adding `v` there (with the `int32`
wrap of the numpy cells), and leaves every other cell, the hash parameters,
`k` and `n` unchanged; in this functional model it is total, so it succeeds
on every element. -/
theorem update_element_frame (s : CountMinSketch) (x v : ℤ) :
    (update_element s x v).k = s.k
  ∧ (update_element s x v).n = s.n
  ∧ (update_element s x v).hash_params = s.hash_params
  ∧ (∀ i, i < s.n → (update_element s x v).table_counts i (col_of s i x)
        = wrap32 (s.table_counts i (col_of s i x) + v))
  ∧ (∀ i c, ¬ (i < s.n ∧ c = col_of s i x) →
        (update_element s x v).table_counts i c = s.table_counts i c) := by
  refine ⟨rfl, rfl, rfl, ?_, ?_⟩
  · intro i hi
    rw [update_table_eq, if_pos ⟨hi, rfl⟩]
  · intro i c hic
    rw [update_table_eq, if_neg hic]

/-- Witness for C8: on a fresh 2-by-2 sketch, updating element `3` by `5`
writes the chosen cell of row 0 and leaves an unrelated cell untouched. -/
theorem update_element_frame_w :
    (update_element (freshSketch 2 2 ps0) 3 5).table_counts 0 9
        = (freshSketch 2 2 ps0).table_counts 0 9
  ∧ (update_element (freshSketch 2 2 ps0) 3 5).table_counts 0
        (col_of (freshSketch 2 2 ps0) 0 3)
      = wrap32 ((freshSketch 2 2 ps0).table_counts 0
          (col_of (freshSketch 2 2 ps0) 0 3) + 5) :=
  ⟨(update_element_frame (freshSketch 2 2 ps0) 3 5).2.2.2.2 0 9 (by decide),
   (update_element_frame (freshSketch 2 2 ps0) 3 5).2.2.2.1 0 (by decide)⟩

/-- Claim C3 (code bug): `update_element` never modifies the `total` field;
it stays at its initial value `0` forever, so a single `update_element(0, 5)`
on a fresh sketch leaves `total = 0` where the claim demands `5`. -/
theorem update_element_total_unchanged :
    (∀ (s : CountMinSketch) (x v : ℤ), (update_element s x v).total = s.total)
  ∧ (update_element (freshSketch 1 1 ps0) 0 5).total = 0 :=
  ⟨fun _ _ _ => rfl, rfl⟩

theorem run_col_of (l : List (ℤ × ℤ)) : ∀ (s : CountMinSketch) (i : ℕ) (y : ℤ),
    col_of (run_updates s l) i y = col_of s i y := by
  induction l with
  | nil => intro s i y; rfl
  | cons p tl ih =>
    intro s i y
    rw [run_updates_cons, ih, col_of_update]

theorem sum_incs_cons (p : ℤ × ℤ) (tl : List (ℤ × ℤ)) :
    sum_incs (p :: tl) = p.2 + sum_incs tl := by
  simp [sum_incs]

theorem sum_incs_nonneg (l : List (ℤ × ℤ)) (h : ∀ p ∈ l, 0 ≤ p.2) :
    0 ≤ sum_incs l := by
  apply List.sum_nonneg
  intro z hz
  rcases List.mem_map.mp hz with ⟨q, hq, rfl⟩
  exact h q hq

theorem true_count_le_sum_incs (x : ℤ) (l : List (ℤ × ℤ))
    (h : ∀ p ∈ l, 0 ≤ p.2) : true_count x l ≤ sum_incs l := by
  apply List.sum_le_sum
  intro p hp
  by_cases hpx : p.1 = x
  · rw [if_pos hpx]
  · rw [if_neg hpx]; exact h p hp

theorem added_at_cons (s : CountMinSketch) (i c : ℕ) (p : ℤ × ℤ)
    (tl : List (ℤ × ℤ)) :
    added_at s i c (p :: tl)
      = (if col_of s i p.1 = c then p.2 else 0) + added_at s i c tl := by
  simp [added_at]

theorem added_at_ge_true_count (s : CountMinSketch) (i : ℕ) (x : ℤ)
    (l : List (ℤ × ℤ)) (h : ∀ p ∈ l, 0 ≤ p.2) :
    true_count x l ≤ added_at s i (col_of s i x) l := by
  apply List.sum_le_sum
  intro p hp
  by_cases hpx : p.1 = x
  · rw [if_pos hpx, if_pos (by rw [hpx])]
  · rw [if_neg hpx]
    by_cases hcc : col_of s i p.1 = col_of s i x
    · rw [if_pos hcc]; exact h p hp
    · rw [if_neg hcc]

theorem run_table_eq : ∀ (l : List (ℤ × ℤ)) (s : CountMinSketch),
    (∀ i c, 0 ≤ s.table_counts i c) →
    (∀ i c, s.table_counts i c + sum_incs l < 2 ^ 31) →
    (∀ p ∈ l, 0 ≤ p.2) →
    ∀ i c, i < s.n →
      (run_updates s l).table_counts i c = s.table_counts i c + added_at s i c l := by
  intro l
  induction l with
  | nil =>
    intro s _ _ _ i c _
    simp [run_updates, added_at]
  | cons p tl ih =>
    intro s h0 hb hpos i c hi
    have hp2 : 0 ≤ p.2 := hpos p (List.mem_cons_self p tl)
    have hpos' : ∀ q ∈ tl, 0 ≤ q.2 := fun q hq => hpos q (List.mem_cons_of_mem p hq)
    have hsum_tl : 0 ≤ sum_incs tl := sum_incs_nonneg tl hpos'
    have hw : ∀ i' c', (update_element s p.1 p.2).table_counts i' c'
        = s.table_counts i' c'
          + (if i' < s.n ∧ c' = col_of s i' p.1 then p.2 else 0) := by
      intro i' c'
      rw [update_table_eq]
      by_cases hcase : i' < s.n ∧ c' = col_of s i' p.1
      · rw [if_pos hcase, if_pos hcase]
        have hbb := hb i' c'
        rw [sum_incs_cons] at hbb
        have ht0 := h0 i' c'
        exact wrap32_eq_self _ (by omega) (by omega)
      · rw [if_neg hcase, if_neg hcase, add_zero]
    have h0' : ∀ i' c', 0 ≤ (update_element s p.1 p.2).table_counts i' c' := by
      intro i' c'
      rw [hw i' c']
      have := h0 i' c'
      by_cases hcc : i' < s.n ∧ c' = col_of s i' p.1
      · rw [if_pos hcc]; omega
      · rw [if_neg hcc]; omega
    have hb' : ∀ i' c',
        (update_element s p.1 p.2).table_counts i' c' + sum_incs tl < 2 ^ 31 := by
      intro i' c'
      rw [hw i' c']
      have hbb := hb i' c'
      rw [sum_incs_cons] at hbb
      by_cases hcc : i' < s.n ∧ c' = col_of s i' p.1
      · rw [if_pos hcc]; omega
      · rw [if_neg hcc]; omega
    have hi' : i < (update_element s p.1 p.2).n := hi
    rw [run_updates_cons, ih (update_element s p.1 p.2) h0' hb' hpos' i c hi']
    have hAdd : added_at (update_element s p.1 p.2) i c tl = added_at s i c tl := rfl
    rw [hAdd, hw i c, added_at_cons]
    have hite : (if i < s.n ∧ c = col_of s i p.1 then p.2 else 0)
        = (if col_of s i p.1 = c then p.2 else 0) := by
      by_cases hc1 : c = col_of s i p.1
      · rw [if_pos ⟨hi, hc1⟩, if_pos hc1.symm]
      · rw [if_neg (fun h => hc1 h.2), if_neg (fun h => hc1 h.symm)]
    rw [hite]
    ring

/-- Claim C2, amended with an overflow bound: starting from a freshly
constructed sketch, replaying any sequence of non-negative increments whose
total weight stays below `2^31` (so that no `int32` counter wraps) makes
the estimate of every element at least its true count. -/
theorem no_underestimate (k n : ℕ) (ps : ℕ → ℕ × ℕ) (l : List (ℤ × ℤ)) (x : ℤ)
    (hk : 1 ≤ k) (hn : 1 ≤ n)
    (hpos : ∀ p ∈ l, 0 ≤ p.2) (hsum : sum_incs l < 2 ^ 31) :
    true_count x l ≤ (estimate_element_count (run_updates (freshSketch k n ps) l) x).2 := by
  rw [estimate_snd]
  apply le_foldl_min
  · have h1 := true_count_le_sum_incs x l hpos
    unfold maxsize
    omega
  · intro i hi
    have hiN : i < n := by
      have := List.mem_range.mp hi
      rwa [run_updates_n] at this
    have hcol : col_of (run_updates (freshSketch k n ps) l) i x
        = col_of (freshSketch k n ps) i x := run_col_of l (freshSketch k n ps) i x
    have htab := run_table_eq l (freshSketch k n ps)
      (fun _ _ => le_refl 0)
      (fun _ _ => by simpa [freshSketch] using hsum)
      hpos i (col_of (freshSketch k n ps) i x) hiN
    unfold rowVal
    rw [hcol, htab]
    have hge := added_at_ge_true_count (freshSketch k n ps) i x l hpos
    simpa [freshSketch] using hge

/-- Witness for C2 (amended): one update of weight 3 on element 5 yields an
estimate of at least 3. -/
theorem no_underestimate_w :
    true_count 5 [((5 : ℤ), (3 : ℤ))]
      ≤ (estimate_element_count (run_updates (freshSketch 1 1 ps0) [(5, 3)]) 5).2 :=
  no_underestimate 1 1 ps0 [(5, 3)] 5 (by decide) (by decide)
    (by decide) (by decide)

/-- Counterexample to C2 as stated: a single update of non-negative weight
`2^31` overflows the `int32` counter of the only cell, so the estimate
`-2^31` falls below the true count `2^31`. -/
theorem no_underestimate_cex :
    ¬ (true_count 0 [((0 : ℤ), (2 : ℤ) ^ 31)]
        ≤ (estimate_element_count (run_updates (freshSketch 1 1 ps0) [(0, 2 ^ 31)]) 0).2) := by
  decide

theorem rowVal_update (s : CountMinSketch) (x c : ℤ) (i : ℕ) (hi : i < s.n) :
    rowVal (update_element s x c) x i = wrap32 (rowVal s x i + c) := by
  unfold rowVal
  rw [col_of_update, update_table_eq, if_pos ⟨hi, rfl⟩]

/-- Claim C9, amended with an overflow bound: on a well-formed sketch,
`update_element x c` with `c > 0` never decreases the subsequent estimate of
`x`, and with `c < 0` never increases it, provided the `n` touched `int32`
counters do not wrap (their new values stay inside `[-2^31, 2^31)`). -/
theorem update_element_monotone (s : CountMinSketch) (x c : ℤ) (hwf : WF s) :
    (0 < c → (∀ i, i < s.n → rowVal s x i + c < 2 ^ 31) →
      (estimate_element_count s x).2
        ≤ (estimate_element_count (update_element s x c) x).2)
  ∧ (c < 0 → (∀ i, i < s.n → -(2 ^ 31) ≤ rowVal s x i + c) →
      (estimate_element_count (update_element s x c) x).2
        ≤ (estimate_element_count s x).2) := by
  have hn : (update_element s x c).n = s.n := rfl
  constructor
  · intro hc hbound
    rw [estimate_snd, estimate_snd, hn]
    apply foldl_min_mono
    · exact le_refl maxsize
    · intro i hi
      have hiN : i < s.n := List.mem_range.mp hi
      rw [rowVal_update s x c i hiN]
      have hlo := (hwf i (col_of s i x)).1
      have hw : wrap32 (rowVal s x i + c) = rowVal s x i + c := by
        apply wrap32_eq_self
        · unfold rowVal; omega
        · exact hbound i hiN
      rw [hw]
      omega
  · intro hc hbound
    rw [estimate_snd, estimate_snd, hn]
    apply foldl_min_mono
    · exact le_refl maxsize
    · intro i hi
      have hiN : i < s.n := List.mem_range.mp hi
      rw [rowVal_update s x c i hiN]
      have hhi := (hwf i (col_of s i x)).2
      have hw : wrap32 (rowVal s x i + c) = rowVal s x i + c := by
        apply wrap32_eq_self
        · exact hbound i hiN
        · unfold rowVal; omega
      rw [hw]
      omega

/-- Witness for C9 (amended): a positive update of weight 1 on a fresh
sketch does not decrease the estimate of the updated element. -/
theorem update_element_monotone_w :
    (estimate_element_count (freshSketch 1 1 ps0) 0).2
      ≤ (estimate_element_count (update_element (freshSketch 1 1 ps0) 0 1) 0).2 :=
  (update_element_monotone (freshSketch 1 1 ps0) 0 1 (WF_fresh 1 1 ps0)).1
    (by decide)
    (by
      intro i hi
      have hi1 : i < 1 := hi
      have h0 : i = 0 := by omega
      subst h0
      decide)

/-- Counterexample to C9 as stated: with the only counter already at
`2^31 - 1`, a further update of `+1` wraps the `int32` cell to `-2^31`, so
the estimate strictly decreases although the increment is positive. -/
theorem update_element_monotone_cex :
    ¬ ((estimate_element_count (update_element (freshSketch 1 1 ps0) 0 (2 ^ 31 - 1)) 0).2
        ≤ (estimate_element_count
            (update_element (update_element (freshSketch 1 1 ps0) 0 (2 ^ 31 - 1)) 0 1) 0).2) := by
  decide

theorem kOf_pos (ε : ℝ) (hε : 0 < ε) : 0 < kOf ε :=
  Int.ceil_pos.mpr (div_pos (Real.exp_pos 1) hε)

theorem nOf_pos (δ : ℝ) (hδ0 : 0 < δ) (hδ1 : δ < 1) : 0 < nOf δ :=
  Int.ceil_pos.mpr (Real.log_pos (one_lt_one_div hδ0 hδ1))

theorem init_eps_delta (ps : ℕ → ℕ × ℕ) (ε δ : ℝ) (kOpt nOpt : Option ℤ)
    (hk : 0 ≤ kOf ε) (hn : 0 ≤ nOf δ) :
    init ps (some ε) (some δ) kOpt nOpt
      = .ok (freshSketch (kOf ε).toNat (nOf δ).toNat ps) := by
  show mkSketch (kOf ε) (nOf δ) ps
      = .ok (freshSketch (kOf ε).toNat (nOf δ).toNat ps)
  unfold mkSketch
  rw [if_neg (by omega)]
  rfl

theorem kOf_hundredth : kOf (1 / 100) = 272 := by
  unfold kOf
  have hdiv : Real.exp 1 / (1 / 100) = Real.exp 1 * 100 := by
    ring
  rw [hdiv, Int.ceil_eq_iff]
  have h1 := Real.exp_one_gt_d9
  have h2 := Real.exp_one_lt_d9
  constructor
  · push_cast
    nlinarith
  · push_cast
    nlinarith

theorem nOf_hundredth : nOf (1 / 100) = 5 := by
  unfold nOf
  rw [one_div_one_div, Int.ceil_eq_iff]
  constructor
  · have h4 : (4 : ℝ) < Real.log 100 := by
      rw [Real.lt_log_iff_exp_lt (by norm_num)]
      have he : Real.exp 4 = Real.exp 1 ^ (4 : ℕ) := by
        rw [← Real.exp_nat_mul]
        norm_num
      rw [he]
      calc Real.exp 1 ^ (4 : ℕ) < (2.7182818286 : ℝ) ^ (4 : ℕ) :=
            pow_lt_pow_left₀ Real.exp_one_lt_d9 (Real.exp_pos 1).le (by norm_num)
        _ < 100 := by norm_num
    push_cast
    linarith
  · have hlog : Real.log 100 ≤ 5 := by
      rw [Real.log_le_iff_le_exp (by norm_num)]
      have he : Real.exp 5 = Real.exp 1 ^ (5 : ℕ) := by
        rw [← Real.exp_nat_mul]
        norm_num
      rw [he]
      have hlt : (100 : ℝ) < Real.exp 1 ^ (5 : ℕ) := by
        calc (100 : ℝ) < (2.7182818283 : ℝ) ^ (5 : ℕ) := by norm_num
          _ < Real.exp 1 ^ (5 : ℕ) :=
              pow_lt_pow_left₀ Real.exp_one_gt_d9 (by norm_num) (by norm_num)
      linarith
    push_cast
    linarith

theorem kOf_two_nonneg : 0 ≤ kOf 2 :=
  Int.ceil_nonneg (div_nonneg (Real.exp_pos 1).le (by norm_num))

theorem nOf_two_eq_zero : nOf 2 = 0 := by
  unfold nOf
  have hlog : Real.log (1 / 2) = -Real.log 2 := by
    rw [one_div, Real.log_inv]
  rw [Int.ceil_eq_iff, hlog]
  have h1 := Real.log_two_lt_d9
  have h2 := Real.log_two_gt_d9
  constructor
  · push_cast
    linarith
  · push_cast
    linarith

/-- Claim C4: when neither the `(epsilon, delta)` pair nor the `(k, n)` pair
is fully supplied, `__init__` raises its configuration exception and no
sketch (hence no counter table) is produced. -/
theorem insufficient_params (ps : ℕ → ℕ × ℕ) (eOpt dOpt : Option ℝ)
    (kOpt nOpt : Option ℤ)
    (h1 : ¬ (dOpt.isSome = true ∧ eOpt.isSome = true))
    (h2 : ¬ (kOpt.isSome = true ∧ nOpt.isSome = true)) :
    init ps eOpt dOpt kOpt nOpt = .error .configuration := by
  cases dOpt with
  | some d =>
    cases eOpt with
    | some e => exact absurd ⟨rfl, rfl⟩ h1
    | none =>
      cases kOpt <;> cases nOpt <;> first | rfl | exact absurd ⟨rfl, rfl⟩ h2
  | none =>
    cases kOpt <;> cases nOpt <;> first | rfl | exact absurd ⟨rfl, rfl⟩ h2

/-- Witness for C4: constructing with no parameters at all fails with the
configuration error. -/
theorem insufficient_params_w :
    init ps0 none none none none = .error .configuration :=
  insufficient_params ps0 none none none none (by simp) (by simp)

/-- Claim C5, amended: `__init__` performs no parameter validation at all.
With `k` and `n` supplied it succeeds for every non-negative pair (so in
particular for the non-positive values `k = 0` or `n = 0`), failing only for
negative values — with numpy's dimension error, not an
`InvalidParameterError`; and out-of-range accuracy targets such as
`epsilon = delta = 2` also construct successfully. -/
theorem construction_unvalidated (ps : ℕ → ℕ × ℕ) :
    (∀ kv nv : ℤ, 0 ≤ kv → 0 ≤ nv →
      init ps none none (some kv) (some nv)
        = .ok (freshSketch kv.toNat nv.toNat ps))
  ∧ (∀ kv nv : ℤ, kv < 0 ∨ nv < 0 →
      init ps none none (some kv) (some nv) = .error .negativeDimension)
  ∧ initOk (init ps (some 2) (some 2) none none) = true := by
  refine ⟨?_, ?_, ?_⟩
  · intro kv nv hk hn
    show mkSketch kv nv ps = .ok (freshSketch kv.toNat nv.toNat ps)
    unfold mkSketch
    rw [if_neg (by omega)]
    rfl
  · intro kv nv h
    show mkSketch kv nv ps = .error .negativeDimension
    unfold mkSketch
    rw [if_pos (by omega)]
  · show initOk (mkSketch (kOf 2) (nOf 2) ps) = true
    unfold mkSketch
    rw [if_neg]
    · rfl
    · have hk := kOf_two_nonneg
      have hn := nOf_two_eq_zero
      omega

/-- Witness for C5 (amended): supplying `k = 5`, `n = 7` builds the expected
zeroed sketch. -/
theorem construction_unvalidated_w :
    init ps0 none none (some 5) (some 7) = .ok (freshSketch 5 7 ps0) :=
  (construction_unvalidated ps0).1 5 7 (by decide) (by decide)

/-- Counterexample to C5 as stated: construction with the non-positive
dimensions `k = 0`, `n = 0` succeeds instead of failing with an
`InvalidParameterError`. -/
theorem construction_unvalidated_cex :
    initOk (init ps0 none none (some 0) (some 0)) = true := by
  decide

/-- Claim C6: for accuracy targets in `(0, 1)` the constructor sets
`k = ceil(e / epsilon)` and `n = ceil(ln(1 / delta))` and allocates an
all-zero `n`-row, `k`-column counter table. -/
theorem param_equivalence (ps : ℕ → ℕ × ℕ) (ε δ : ℝ) (kOpt nOpt : Option ℤ)
    (hε0 : 0 < ε) (hε1 : ε < 1) (hδ0 : 0 < δ) (hδ1 : δ < 1) :
    init ps (some ε) (some δ) kOpt nOpt
      = .ok (freshSketch (kOf ε).toNat (nOf δ).toNat ps)
  ∧ ((kOf ε).toNat : ℤ) = ⌈Real.exp 1 / ε⌉
  ∧ ((nOf δ).toNat : ℤ) = ⌈Real.log (1 / δ)⌉
  ∧ ∀ i c, (freshSketch (kOf ε).toNat (nOf δ).toNat ps).table_counts i c = 0 := by
  have hk := kOf_pos ε hε0
  have hn := nOf_pos δ hδ0 hδ1
  exact ⟨init_eps_delta ps ε δ kOpt nOpt hk.le hn.le,
    Int.toNat_of_nonneg hk.le, Int.toNat_of_nonneg hn.le, fun i c => rfl⟩

/-- Witness for C6: `epsilon = delta = 0.01` yields exactly `k = 272` and
`n = 5`, with the all-zero table. -/
theorem param_equivalence_w :
    init ps0 (some (1 / 100 : ℝ)) (some (1 / 100 : ℝ)) none none
      = .ok (freshSketch 272 5 ps0) := by
  have h := (param_equivalence ps0 (1 / 100) (1 / 100) none none
    (by norm_num) (by norm_num) (by norm_num) (by norm_num)).1
  rw [h, kOf_hundredth, nOf_hundredth]
  rfl

/-- Claim C7, amended: a sketch built from accuracy targets in `(0, 1)`, or
from directly supplied dimensions `k ≥ 1` and `n ≥ 1`, satisfies `k ≥ 1` and
`n ≥ 1`, and `update_element` preserves `k` and `n` (`estimate_element_count`
does not modify the sketch at all in this functional model). -/
theorem dims_ge_one :
    (∀ (ps : ℕ → ℕ × ℕ) (ε δ : ℝ) (kOpt nOpt : Option ℤ) (s : CountMinSketch),
      0 < ε → ε < 1 → 0 < δ → δ < 1 →
      init ps (some ε) (some δ) kOpt nOpt = .ok s → 1 ≤ s.k ∧ 1 ≤ s.n)
  ∧ (∀ (ps : ℕ → ℕ × ℕ) (kv nv : ℤ) (s : CountMinSketch), 1 ≤ kv → 1 ≤ nv →
      init ps none none (some kv) (some nv) = .ok s → 1 ≤ s.k ∧ 1 ≤ s.n)
  ∧ (∀ (s : CountMinSketch) (x v : ℤ),
      (update_element s x v).k = s.k ∧ (update_element s x v).n = s.n) := by
  refine ⟨?_, ?_, fun s x v => ⟨rfl, rfl⟩⟩
  · intro ps ε δ kOpt nOpt s hε0 hε1 hδ0 hδ1 hok
    have hk := kOf_pos ε hε0
    have hn := nOf_pos δ hδ0 hδ1
    rw [init_eps_delta ps ε δ kOpt nOpt hk.le hn.le] at hok
    injection hok with h
    subst h
    constructor
    · show 1 ≤ (kOf ε).toNat
      omega
    · show 1 ≤ (nOf δ).toNat
      omega
  · intro ps kv nv s hk hn hok
    have hred : init ps none none (some kv) (some nv) = mkSketch kv nv ps := rfl
    rw [hred] at hok
    unfold mkSketch at hok
    rw [if_neg (by omega)] at hok
    injection hok with h
    subst h
    constructor
    · show 1 ≤ kv.toNat
      omega
    · show 1 ≤ nv.toNat
      omega

/-- Witness for C7 (amended): the sketch built from `k = 3`, `n = 3` has
`k ≥ 1` and `n ≥ 1`. -/
theorem dims_ge_one_w :
    1 ≤ (freshSketch 3 3 ps0).k ∧ 1 ≤ (freshSketch 3 3 ps0).n :=
  dims_ge_one.2.1 ps0 3 3 (freshSketch 3 3 ps0) (by decide) (by decide) rfl

/-- Counterexample to C7 as stated: constructing with `k = 0`, `n = 3`
succeeds, so a successfully constructed sketch can violate `k ≥ 1`. -/
theorem dims_ge_one_cex :
    (init ps0 none none (some 0) (some 3)).map CountMinSketch.k = .ok 0
  ∧ ¬ (1 ≤ (0 : ℕ)) :=
  ⟨rfl, by decide⟩

/-- Claim C10: when all four constructor arguments are supplied, the
`(epsilon, delta)` branch wins: the result is the same as supplying only
`(epsilon, delta)`, with dimensions derived from the accuracy targets and
the supplied `k`, `n` silently ignored. -/
theorem eps_delta_precedence (ps : ℕ → ℕ × ℕ) (ε δ : ℝ) (kv nv : ℤ)
    (hε0 : 0 < ε) (hε1 : ε < 1) (hδ0 : 0 < δ) (hδ1 : δ < 1) :
    init ps (some ε) (some δ) (some kv) (some nv)
      = init ps (some ε) (some δ) none none
  ∧ (init ps (some ε) (some δ) (some kv) (some nv)).map (fun s => (s.k, s.n))
      = .ok ((kOf ε).toNat, (nOf δ).toNat) := by
  have hk := (kOf_pos ε hε0).le
  have hn := (nOf_pos δ hδ0 hδ1).le
  refine ⟨rfl, ?_⟩
  rw [init_eps_delta ps ε δ (some kv) (some nv) hk hn]
  rfl

/-- Witness for C10: with `epsilon = delta = 0.01` and `k = 7`, `n = 9` all
supplied, the sketch gets the derived dimensions `(272, 5)`, not `(7, 9)`. -/
theorem eps_delta_precedence_w :
    (init ps0 (some (1 / 100 : ℝ)) (some (1 / 100 : ℝ)) (some 7) (some 9)).map
        (fun s => (s.k, s.n)) = .ok (272, 5) := by
  have h := (eps_delta_precedence ps0 (1 / 100) (1 / 100) 7 9
    (by norm_num) (by norm_num) (by norm_num) (by norm_num)).2
  rw [kOf_hundredth, nOf_hundredth] at h
  exact h

end CMS
